import Mathlib

/-!
Verification of the PCA pipeline of `notebooks/Day2_3-Dimensionality-Reduction.ipynb`.

The notebook's reproducible core is:
* `X_std = StandardScaler().fit_transform(iris.data)` — per-feature centering and
  division by the population (ddof = 0) standard deviation;
* `Σ = np.cov(X_std.T)` — sample covariance with the default `ddof = 1`;
* `evals, evecs = np.linalg.eig(Σ)` — an eigendecomposition, columns of `evecs`
  are unit-length eigenvectors, in an order the routine does not specify;
* `variance_explained = 100 * np.sort(evals)[::-1] / evals.sum()` and the
  cumulative curve `np.r_[0, variance_explained.cumsum()]`;
* `W = evecs[:, :2]` and `Y = X_std @ W`;
* `pca = PCA(n_components=3, whiten=True).fit(iris.data)` followed by
  `X_pca = pca.transform(iris.data)` — a library PCA fitted on the raw data.

The data matrix is embedded as `Matrix (Fin N) (Fin D) α` over a field `α`
(`ℚ` for executable witnesses, `ℝ` where square roots are unavoidable).
`np.linalg.eig` is a library routine whose source is not part of the
repository; it is represented by its contract `IsEigenpairs` (each returned
column is an eigenvector of the argument for the paired eigenvalue) together
with `unitColumns` (the columns are normalized to unit length).
-/

namespace DimRed

variable {α : Type*} [Field α]
variable {N D : ℕ}

/-- Mean of column `j` of the data matrix (`np.mean` along axis 0, as used by
`StandardScaler`). -/
def colMean (M : Matrix (Fin N) (Fin D) α) (j : Fin D) : α :=
  (∑ i, M i j) / (N : α)

/-- Population (ddof = 0) variance of column `j`, as used by `StandardScaler`. -/
def popVar (M : Matrix (Fin N) (Fin D) α) (j : Fin D) : α :=
  (∑ i, (M i j - colMean M j) ^ 2) / (N : α)

/-- `StandardScaler().fit_transform`: subtract the column mean and divide by the
column's standard deviation.  The scaler divides by the square root of
`popVar`, which is irrational for most rational inputs, so the vector `sigma`
of per-column standard deviations is passed explicitly; theorems constrain it
by `sigma j ^ 2 = popVar M j` and `0 < sigma j` (resp. `sigma j ≠ 0`). -/
def standardize (M : Matrix (Fin N) (Fin D) α) (sigma : Fin D → α) :
    Matrix (Fin N) (Fin D) α :=
  fun i j => (M i j - colMean M j) / sigma j

/-- `np.cov(M.T)`: the D×D sample covariance matrix of the columns of `M`,
with the default normalization by `N - 1`. -/
def covMatrix (M : Matrix (Fin N) (Fin D) α) : Matrix (Fin D) (Fin D) α :=
  fun j k => (∑ i, (M i j - colMean M j) * (M i k - colMean M k)) / ((N : α) - 1)

/-- Contract of `evals, evecs = np.linalg.eig(A)`: column `i` of `evecs` is an
eigenvector of `A` with eigenvalue `evals i`.  (`np.linalg.eig` promises no
particular order of the pairs.) -/
def IsEigenpairs (A : Matrix (Fin D) (Fin D) α) (evals : Fin D → α)
    (V : Matrix (Fin D) (Fin D) α) : Prop :=
  ∀ i j, ∑ k, A j k * V k i = evals i * V j i

/-- Second half of the `np.linalg.eig` contract: the returned eigenvector
columns have unit Euclidean length. -/
def unitColumns (V : Matrix (Fin D) (Fin D) α) : Prop :=
  ∀ i, ∑ j, V j i * V j i = 1

/-- Dot product of columns `i` and `i'` of `V`. -/
def colDot (V : Matrix (Fin D) (Fin D) α) (i i' : Fin D) : α :=
  ∑ j, V j i * V j i'

/-- `M[:, :K]`: the first `K` columns, in the order they appear in `M`
(this is how `W = evecs[:, :2]` is formed, with no sorting step). -/
def takeCols (M : Matrix (Fin D) (Fin D) α) (K : ℕ) (h : K ≤ D) :
    Matrix (Fin D) (Fin K) α :=
  fun j k => M j (Fin.castLE h k)

section Standardization

/-- The sum of the centered entries of any column is zero. -/
lemma sum_sub_colMean (hN : (N : α) ≠ 0) (M : Matrix (Fin N) (Fin D) α) (j : Fin D) :
    ∑ i, (M i j - colMean M j) = 0 := by
  simp only [Finset.sum_sub_distrib, Finset.sum_const, Finset.card_univ,
    Fintype.card_fin, colMean, nsmul_eq_mul]
  rw [mul_div_cancel₀ _ hN, sub_self]

/-- After standardization every column has mean zero (for any nonzero divisor,
in particular for the standard deviation). -/
lemma colMean_standardize (hN : (N : α) ≠ 0) (M : Matrix (Fin N) (Fin D) α)
    (sigma : Fin D → α) (j : Fin D) :
    colMean (standardize M sigma) j = 0 := by
  unfold colMean standardize
  rw [← Finset.sum_div, sum_sub_colMean hN M j]
  simp

/-- After standardization a column whose divisor squares to its population
variance has population variance one. -/
lemma popVar_standardize (hN : (N : α) ≠ 0) (M : Matrix (Fin N) (Fin D) α)
    (sigma : Fin D → α) (j : Fin D) (hs : sigma j ≠ 0)
    (hvar : sigma j ^ 2 = popVar M j) :
    popVar (standardize M sigma) j = 1 := by
  have hS : (∑ i, (M i j - colMean M j) ^ 2) ≠ 0 := by
    intro h0
    apply hs
    have h2 : sigma j ^ 2 = 0 := by
      rw [hvar]; unfold popVar; rw [h0]; simp
    exact pow_eq_zero_iff (n := 2) (by norm_num) |>.mp h2
  unfold popVar
  rw [colMean_standardize hN M sigma j]
  have hrw : ∑ i, (standardize M sigma i j - 0) ^ 2
      = (∑ i, (M i j - colMean M j) ^ 2) / sigma j ^ 2 := by
    rw [Finset.sum_div]
    refine Finset.sum_congr rfl fun i _ => ?_
    unfold standardize
    rw [sub_zero, div_pow]
  rw [hrw, hvar]
  unfold popVar
  rw [div_div_eq_mul_div, mul_comm, mul_div_assoc, div_self hS, mul_one, div_self hN]

end Standardization

/-- C2: after the standardization step every feature column of the transformed
matrix has mean exactly zero and population (divide-by-N) variance exactly
one, whenever the original column's variance is nonzero (equivalently, its
standard deviation `sigma j` is nonzero). -/
theorem standardize_zero_mean_unit_var (hN : 0 < N)
    (M : Matrix (Fin N) (Fin D) ℚ) (sigma : Fin D → ℚ) (j : Fin D)
    (hs : sigma j ≠ 0) (hvar : sigma j ^ 2 = popVar M j) :
    colMean (standardize M sigma) j = 0 ∧ popVar (standardize M sigma) j = 1 := by
  have hN' : (N : ℚ) ≠ 0 := Nat.cast_ne_zero.mpr hN.ne'
  exact ⟨colMean_standardize hN' M sigma j,
    popVar_standardize hN' M sigma j hs hvar⟩

/-- Concrete run of C2: the column `(0, 2)` has mean 1, population variance 1,
and standardizes to mean 0, variance 1. -/
theorem standardize_zero_mean_unit_var_witness :
    colMean (standardize (!![(0 : ℚ); (2 : ℚ)]) (fun _ => 1)) 0 = 0 ∧
      popVar (standardize (!![(0 : ℚ); (2 : ℚ)]) (fun _ => 1)) 0 = 1 :=
  standardize_zero_mean_unit_var (by norm_num) _ _ 0 (by norm_num)
    (by norm_num [popVar, colMean, Fin.sum_univ_succ])

/-!
### A concrete run of the pipeline

`exData` is a 5-observation, 4-feature data set whose columns already have
mean 0 and population variance 1 (so the scaler with `sigma = 1` leaves it
unchanged), and whose covariance matrix `exCov` has the exact rational
eigendecomposition `exVals`/`exVecs`: the columns of `exVecs` are orthonormal
and the eigenvalues are `1/2, 3/2, 3, 0`.  It instantiates the hypotheses of
the theorems below.
-/

/-- A concrete 5×4 data matrix: columns have mean 0 and population variance 1. -/
def exData : Matrix (Fin 5) (Fin 4) ℚ :=
  !![3/2, 1/2, 1/2, -1/2;
     1/2, -1/2, -1/2, -3/2;
     -1/2, -3/2, 3/2, 1/2;
     -3/2, 3/2, -3/2, 3/2;
     0, 0, 0, 0]

/-- The covariance matrix of `exData`. -/
def exCov : Matrix (Fin 4) (Fin 4) ℚ :=
  !![5/4, -1/4, 1/2, -1;
     -1/4, 5/4, -1, 1/2;
     1/2, -1, 5/4, -1/4;
     -1, 1/2, -1/4, 5/4]

/-- Orthonormal eigenvectors of `exCov` (as returned by the eigendecomposition,
in an order that is NOT sorted by eigenvalue). -/
def exVecs : Matrix (Fin 4) (Fin 4) ℚ :=
  !![1/2, 1/2, 1/2, 1/2;
     1/2, 1/2, -1/2, -1/2;
     1/2, -1/2, 1/2, -1/2;
     1/2, -1/2, -1/2, 1/2]

/-- The eigenvalues paired with the columns of `exVecs`. -/
def exVals : Fin 4 → ℚ := ![1/2, 3/2, 3, 0]

/-- The same eigenvectors with the columns rearranged into descending
eigenvalue order `3, 3/2, 1/2, 0`. -/
def exVecsD : Matrix (Fin 4) (Fin 4) ℚ :=
  !![1/2, 1/2, 1/2, 1/2;
     -1/2, 1/2, 1/2, -1/2;
     1/2, -1/2, 1/2, -1/2;
     -1/2, -1/2, 1/2, 1/2]

/-- The eigenvalues paired with the columns of `exVecsD`. -/
def exValsD : Fin 4 → ℚ := ![3, 3/2, 1/2, 0]

lemma exData_colMean (j : Fin 4) : colMean exData j = 0 := by
  fin_cases j <;> norm_num [colMean, exData, Fin.sum_univ_succ]

lemma exData_popVar (j : Fin 4) : popVar exData j = 1 := by
  fin_cases j <;>
    norm_num [popVar, colMean, exData, Fin.sum_univ_succ]

lemma exData_standardize : standardize exData (fun _ => 1) = exData := by
  ext i j
  unfold standardize
  rw [exData_colMean j]
  simp

set_option maxHeartbeats 1000000 in
lemma exData_cov : covMatrix exData = exCov := by
  have h : ∀ j k : Fin 4, covMatrix exData j k = (∑ i, exData i j * exData i k) / 4 := by
    intro j k
    unfold covMatrix
    rw [exData_colMean j, exData_colMean k]
    norm_num
  ext j k
  rw [h j k]
  fin_cases j <;> fin_cases k <;> norm_num [exData, exCov, Fin.sum_univ_succ]

lemma exData_cov_std : covMatrix (standardize exData (fun _ => 1)) = exCov := by
  rw [exData_standardize, exData_cov]

set_option maxHeartbeats 1000000 in
lemma exCov_eigen : IsEigenpairs exCov exVals exVecs := by
  intro i j
  fin_cases i <;> fin_cases j <;>
    norm_num [exCov, exVals, exVecs, Fin.sum_univ_succ]

set_option maxHeartbeats 1000000 in
lemma exCov_eigenD : IsEigenpairs exCov exValsD exVecsD := by
  intro i j
  fin_cases i <;> fin_cases j <;>
    norm_num [exCov, exValsD, exVecsD, Fin.sum_univ_succ]

lemma exVecs_unit : unitColumns exVecs := by
  intro i
  fin_cases i <;> norm_num [exVecs, Fin.sum_univ_succ]

/-!
### C3: the eigendecomposition step

`np.linalg.eig` is a library routine; `IsEigenpairs` is its contract.  The
theorem states that, for the matrix the notebook feeds to it — the covariance
matrix of the standardized data — every returned pair `(evals i, column i)`
satisfies `Σ · v = λ · v` in vector form.
-/

/-- C3: each pair returned by the eigendecomposition of the covariance matrix
of the standardized data satisfies `Σ · vᵢ = λᵢ • vᵢ`. -/
theorem eig_pairs_satisfy_eigen_equation {N D : ℕ}
    (X : Matrix (Fin N) (Fin D) ℚ) (sigma : Fin D → ℚ)
    (evals : Fin D → ℚ) (V : Matrix (Fin D) (Fin D) ℚ)
    (h : IsEigenpairs (covMatrix (standardize X sigma)) evals V) (i : Fin D) :
    (covMatrix (standardize X sigma)).mulVec (fun j => V j i)
      = evals i • (fun j => V j i) := by
  funext j
  simpa [Matrix.mulVec, Matrix.dotProduct] using h i j

/-- Concrete run of C3 on `exData`: the pair `(3, column 2 of exVecs)` solves
the eigenvalue equation for the covariance of the standardized data. -/
theorem eig_pairs_satisfy_eigen_equation_witness :
    (covMatrix (standardize exData (fun _ => 1))).mulVec (fun j => exVecs j 2)
      = exVals 2 • (fun j => exVecs j 2) :=
  eig_pairs_satisfy_eigen_equation exData (fun _ => 1) exVals exVecs
    (by rw [exData_cov_std]; exact exCov_eigen) 2

/-!
### C1: selection of the projection matrix

The code forms `W = evecs[:, :2]` without sorting by eigenvalue, and
`np.linalg.eig` promises no order.  The claim — every non-selected column's
eigenvalue is at most every selected column's eigenvalue — is stated below as
`selectionIsTopTwo` over all valid runs of the pipeline, and refuted: on
`exData` the eigendecomposition may return the pairs in the order
`1/2, 3/2, 3, 0`, and then the non-selected third column has eigenvalue `3`,
strictly larger than the selected first column's `1/2`.  The amended claim
adds the hypothesis that the eigenvalues come back in non-increasing order.
-/

/-- C1 as stated, quantified over every valid run of the pipeline: the first
two eigenvector columns (the ones `W = evecs[:, :2]` selects) carry
eigenvalues at least as large as every other column's. -/
def selectionIsTopTwo : Prop :=
  ∀ (N D : ℕ) (hD : 2 ≤ D) (X : Matrix (Fin N) (Fin D) ℚ) (sigma : Fin D → ℚ)
    (evals : Fin D → ℚ) (V : Matrix (Fin D) (Fin D) ℚ),
    (∀ j, sigma j ≠ 0 ∧ sigma j ^ 2 = popVar X j) →
    IsEigenpairs (covMatrix (standardize X sigma)) evals V →
    unitColumns V →
    ∀ (j : Fin D) (k : Fin 2), 2 ≤ (j : ℕ) → evals j ≤ evals (Fin.castLE hD k)

/-- C1 counterexample: the pipeline run on `exData` with the (valid,
unsorted) eigendecomposition `exVals`/`exVecs` violates the claim. -/
theorem selection_not_top_two : ¬ selectionIsTopTwo := by
  intro h
  have h5 := h 5 4 (by norm_num) exData (fun _ => 1) exVals exVecs
    (fun j => ⟨by norm_num, by rw [exData_popVar j]; norm_num⟩)
    (by rw [exData_cov_std]; exact exCov_eigen)
    exVecs_unit
    ⟨2, by norm_num⟩ ⟨0, by norm_num⟩ (by norm_num)
  norm_num [exVals, Fin.castLE] at h5

/-- C1 amended: `W = evecs[:, :2]` selects the first two columns as returned;
IF the eigendecomposition returns its eigenvalues in non-increasing order,
then every non-selected column's eigenvalue is at most every selected
column's eigenvalue. -/
theorem selection_top_two_of_sorted {N D : ℕ} (hD : 2 ≤ D)
    (X : Matrix (Fin N) (Fin D) ℚ) (sigma : Fin D → ℚ) (evals : Fin D → ℚ)
    (V : Matrix (Fin D) (Fin D) ℚ)
    (_hpairs : IsEigenpairs (covMatrix (standardize X sigma)) evals V)
    (hsorted : ∀ i j : Fin D, i ≤ j → evals j ≤ evals i)
    (j : Fin D) (k : Fin 2) (hj : 2 ≤ (j : ℕ)) :
    evals j ≤ evals (Fin.castLE hD k) ∧
      (∀ d, takeCols V 2 hD d k = V d (Fin.castLE hD k)) := by
  refine ⟨hsorted _ _ ?_, fun d => rfl⟩
  have hk : ((Fin.castLE hD k : Fin D) : ℕ) = (k : ℕ) := rfl
  have : ((Fin.castLE hD k : Fin D) : ℕ) ≤ (j : ℕ) := by
    rw [hk]; exact le_trans (Nat.le_of_lt_succ (Nat.lt_succ_of_lt k.isLt)) hj
  exact this

/-- Concrete run of the amended C1 on `exData` with the descending-order
eigendecomposition `exValsD`/`exVecsD`. -/
theorem selection_top_two_of_sorted_witness :
    exValsD ⟨2, by norm_num⟩ ≤ exValsD (Fin.castLE (by norm_num) (0 : Fin 2)) ∧
      (∀ d, takeCols exVecsD 2 (by norm_num) d 0
        = exVecsD d (Fin.castLE (by norm_num) (0 : Fin 2))) :=
  selection_top_two_of_sorted (by norm_num) exData (fun _ => 1) exValsD exVecsD
    (by rw [exData_cov_std]; exact exCov_eigenD)
    (by
      intro i j hij
      fin_cases i <;> fin_cases j <;>
        first
          | exact absurd hij (by decide)
          | norm_num [exValsD])
    ⟨2, by norm_num⟩ (0 : Fin 2) (by norm_num)

/-!
### C4: fraction of variance explained

`variance_explained = 100 * np.sort(evals)[::-1] / total` with
`total = evals.sum()`, plotted together with the cumulative curve
`np.r_[0, variance_explained.cumsum()]`.
-/

/-- `np.sort(evals)[::-1]`: sort ascending, then reverse. -/
def sortDesc (l : List ℚ) : List ℚ :=
  (l.insertionSort (· ≤ ·)).reverse

/-- `100 * np.sort(evals)[::-1] / total` with `total = evals.sum()`. -/
def varianceExplained (l : List ℚ) : List ℚ :=
  (sortDesc l).map (fun x => 100 * x / l.sum)

/-- Running totals starting from `a`; `cumulative 0 v` is `np.r_[0, v.cumsum()]`,
the cumulative fractions prefixed with 0. -/
def cumulative : ℚ → List ℚ → List ℚ
  | a, [] => [a]
  | a, x :: xs => a :: cumulative (a + x) xs

lemma sortDesc_perm (l : List ℚ) : (sortDesc l).Perm l :=
  (l.insertionSort (· ≤ ·)).reverse_perm.trans (List.perm_insertionSort _ l)

lemma sortDesc_sorted (l : List ℚ) : (sortDesc l).Sorted (· ≥ ·) := by
  rw [List.Sorted, sortDesc, List.pairwise_reverse]
  exact List.sorted_insertionSort (· ≤ ·) l

lemma cumulative_eq_cons (a : ℚ) (l : List ℚ) :
    ∃ t, cumulative a l = a :: t := by
  cases l <;> exact ⟨_, rfl⟩

lemma cumulative_head (a : ℚ) (l : List ℚ) :
    (cumulative a l).head? = some a := by
  cases l <;> rfl

lemma cumulative_getLast (a : ℚ) (l : List ℚ) :
    (cumulative a l).getLast? = some (a + l.sum) := by
  induction l generalizing a with
  | nil => simp [cumulative]
  | cons x xs ih =>
    obtain ⟨t, ht⟩ := cumulative_eq_cons (a + x) xs
    rw [cumulative, ht, List.getLast?_cons_cons, ← ht, ih]
    rw [List.sum_cons]
    ring_nf

lemma cumulative_le_mem (a : ℚ) (l : List ℚ) (h : ∀ x ∈ l, 0 ≤ x) :
    ∀ b ∈ cumulative a l, a ≤ b := by
  induction l generalizing a with
  | nil =>
    intro b hb
    simp only [cumulative, List.mem_singleton] at hb
    exact hb ▸ le_refl a
  | cons x xs ih =>
    intro b hb
    simp only [cumulative, List.mem_cons] at hb
    rcases hb with rfl | hb
    · exact le_refl b
    · have hx : 0 ≤ x := h x (List.mem_cons_self x xs)
      have := ih (a + x) (fun y hy => h y (List.mem_cons_of_mem x hy)) b hb
      linarith

lemma cumulative_sorted (a : ℚ) (l : List ℚ) (h : ∀ x ∈ l, 0 ≤ x) :
    (cumulative a l).Sorted (· ≤ ·) := by
  induction l generalizing a with
  | nil => simp [cumulative]
  | cons x xs ih =>
    rw [cumulative, List.sorted_cons]
    constructor
    · intro b hb
      have hx : 0 ≤ x := h x (List.mem_cons_self x xs)
      have := cumulative_le_mem (a + x) xs
        (fun y hy => h y (List.mem_cons_of_mem x hy)) b hb
      linarith
    · exact ih (a + x) (fun y hy => h y (List.mem_cons_of_mem x hy))

/-- C4: the per-component fractions of variance explained are the eigenvalues
sorted descending, scaled to percentages: the sequence is non-increasing, its
entries are non-negative, they sum to 100, and the cumulative sequence
prefixed with 0 starts at 0, is non-decreasing, and ends at 100 — provided
the eigenvalues are non-negative with positive total (as for a covariance
matrix of non-constant data). -/
theorem variance_explained_profile (l : List ℚ)
    (hpos : ∀ x ∈ l, 0 ≤ x) (hsum : 0 < l.sum) :
    (varianceExplained l).Sorted (· ≥ ·) ∧
      (∀ x ∈ varianceExplained l, 0 ≤ x) ∧
      (varianceExplained l).sum = 100 ∧
      (cumulative 0 (varianceExplained l)).head? = some 0 ∧
      (cumulative 0 (varianceExplained l)).Sorted (· ≤ ·) ∧
      (cumulative 0 (varianceExplained l)).getLast? = some 100 := by
  have hmem : ∀ x ∈ varianceExplained l, 0 ≤ x := by
    intro x hx
    obtain ⟨a, ha, rfl⟩ := List.mem_map.mp hx
    have ha' : 0 ≤ a := hpos a ((sortDesc_perm l).subset ha)
    exact div_nonneg (by linarith) (le_of_lt hsum)
  have hsum100 : (varianceExplained l).sum = 100 := by
    unfold varianceExplained
    have hfun : (fun x => 100 * x / l.sum) = fun x => (100 / l.sum) * x := by
      funext x; ring
    rw [hfun, List.sum_map_mul_left, List.map_id', (sortDesc_perm l).sum_eq]
    field_simp
  refine ⟨?_, hmem, hsum100, cumulative_head 0 _, cumulative_sorted 0 _ hmem, ?_⟩
  · unfold varianceExplained
    refine List.Pairwise.map _ ?_ (sortDesc_sorted l)
    intro a b hab
    dsimp only
    have hba : b ≤ a := hab
    gcongr
  · rw [cumulative_getLast, hsum100, zero_add]

/-!
### Symmetry of the covariance matrix and consequences

`covMatrix` is symmetric; for a symmetric matrix, eigenvectors for distinct
eigenvalues are orthogonal, and an orthonormal eigenbasis makes the trace the
sum of the eigenvalues.
-/

lemma covMatrix_symm (M : Matrix (Fin N) (Fin D) α) (j k : Fin D) :
    covMatrix M j k = covMatrix M k j := by
  unfold covMatrix
  congr 1
  exact Finset.sum_congr rfl fun i _ => mul_comm _ _

/-- For a symmetric `A`, an eigenvector column `i` of `V` (eigenvalue
`evals i`) and an eigenvector column `q` of `U` (eigenvalue `mu q`) satisfy
`evals i * ⟨vᵢ, u_q⟩ = mu q * ⟨vᵢ, u_q⟩`. -/
lemma eigen_cross_two {A : Matrix (Fin D) (Fin D) α}
    (hsym : ∀ j k, A j k = A k j) {evals mu : Fin D → α}
    {V U : Matrix (Fin D) (Fin D) α}
    (hpV : IsEigenpairs A evals V) (hpU : IsEigenpairs A mu U) (i q : Fin D) :
    evals i * (∑ d, V d i * U d q) = mu q * (∑ d, V d i * U d q) := by
  have h1 : mu q * (∑ d, V d i * U d q) = ∑ d, ∑ k, V d i * A d k * U k q := by
    rw [Finset.mul_sum]
    refine Finset.sum_congr rfl fun d _ => ?_
    calc mu q * (V d i * U d q) = V d i * (mu q * U d q) := by ring
      _ = V d i * ∑ k, A d k * U k q := by rw [hpU q d]
      _ = ∑ k, V d i * A d k * U k q := by
          rw [Finset.mul_sum]
          exact Finset.sum_congr rfl fun k _ => by ring
  have h2 : evals i * (∑ d, V d i * U d q) = ∑ d, ∑ k, V d i * A d k * U k q := by
    rw [Finset.mul_sum]
    calc ∑ d, evals i * (V d i * U d q)
        = ∑ d, (∑ k, A d k * V k i) * U d q := by
          refine Finset.sum_congr rfl fun d _ => ?_
          rw [hpV i d]
          ring
      _ = ∑ d, ∑ k, A d k * V k i * U d q := by
          refine Finset.sum_congr rfl fun d _ => ?_
          rw [Finset.sum_mul]
      _ = ∑ k, ∑ d, A d k * V k i * U d q := Finset.sum_comm
      _ = ∑ d, ∑ k, V d i * A d k * U k q := by
          refine Finset.sum_congr rfl fun a _ => Finset.sum_congr rfl fun b _ => ?_
          rw [hsym b a]
          ring
  rw [h1, h2]

/-- Orthonormal columns expressed as a matrix identity `Vᵀ * V = 1`. -/
lemma orthonormal_transpose_mul {V : Matrix (Fin D) (Fin D) α}
    (h : ∀ i j, colDot V i j = if i = j then 1 else 0) :
    V.transpose * V = 1 := by
  ext i j
  have h' := h i j
  unfold colDot at h'
  rw [Matrix.mul_apply]
  simp only [Matrix.transpose_apply]
  rw [h', Matrix.one_apply]

/-- The eigenpair contract as a matrix identity `A * V = V * diagonal evals`. -/
lemma eigenpairs_matrix_eq {A V : Matrix (Fin D) (Fin D) α} {evals : Fin D → α}
    (hp : IsEigenpairs A evals V) :
    A * V = V * Matrix.diagonal evals := by
  ext j i
  rw [Matrix.mul_apply, Matrix.mul_diagonal, hp i j]
  ring

/-- With an orthonormal eigenbasis, the trace of `A` is the sum of the
eigenvalues. -/
lemma trace_eq_sum_evals {A : Matrix (Fin D) (Fin D) α} {evals : Fin D → α}
    {V : Matrix (Fin D) (Fin D) α} (hp : IsEigenpairs A evals V)
    (horth : ∀ i j, colDot V i j = if i = j then 1 else 0) :
    ∑ i, evals i = Matrix.trace A := by
  have hVtV : V.transpose * V = 1 := orthonormal_transpose_mul horth
  have hVVt : V * V.transpose = 1 := Matrix.mul_eq_one_comm.mp hVtV
  have hAV : A * V = V * Matrix.diagonal evals := eigenpairs_matrix_eq hp
  have hA : A = V * Matrix.diagonal evals * V.transpose := by
    calc A = A * (V * V.transpose) := by rw [hVVt, Matrix.mul_one]
      _ = A * V * V.transpose := by rw [Matrix.mul_assoc]
      _ = V * Matrix.diagonal evals * V.transpose := by rw [hAV]
  rw [hA, Matrix.trace_mul_comm, ← Matrix.mul_assoc, hVtV, Matrix.one_mul,
    Matrix.trace_diagonal]

/-- Orthonormality of `exVecs`, checked entrywise. -/
lemma exVecs_orthonormal_cols (i j : Fin 4) :
    colDot exVecs i j = if i = j then 1 else 0 := by
  fin_cases i <;> fin_cases j <;>
    norm_num [colDot, exVecs, Fin.sum_univ_succ, Fin.ext_iff]

/-!
### C5: orthonormality of the returned eigenvectors

`np.linalg.eig` normalizes its eigenvector columns to unit length; for the
symmetric covariance matrix, columns belonging to distinct eigenvalues are
moreover orthogonal.  (With repeated eigenvalues the routine may return any
basis of the eigenspace, so distinctness is a genuine hypothesis; the Iris
covariance matrix has four distinct eigenvalues.)
-/

/-- C5: the eigenvector columns returned for the covariance matrix are
orthonormal — unit length by the contract, pairwise orthogonal because the
covariance matrix is symmetric and the eigenvalues are distinct. -/
theorem eigvecs_orthonormal {N D : ℕ} (M : Matrix (Fin N) (Fin D) ℚ)
    (evals : Fin D → ℚ) (V : Matrix (Fin D) (Fin D) ℚ)
    (hp : IsEigenpairs (covMatrix M) evals V) (hu : unitColumns V)
    (hdist : ∀ i j, i ≠ j → evals i ≠ evals j) (i j : Fin D) :
    colDot V i j = if i = j then 1 else 0 := by
  by_cases h : i = j
  · subst h
    simpa [colDot] using hu i
  · rw [if_neg h]
    have hcross := eigen_cross_two (covMatrix_symm M) hp hp i j
    have hfac : (evals i - evals j) * colDot V i j = 0 := by
      unfold colDot
      ring_nf
      ring_nf at hcross
      linarith
    rcases mul_eq_zero.mp hfac with h0 | h0
    · exact absurd (sub_eq_zero.mp h0) (hdist i j h)
    · exact h0

/-- Concrete run of C5 on `exData`: columns 0 and 1 of the eigendecomposition
of its covariance matrix are orthogonal (and each has unit norm). -/
theorem eigvecs_orthonormal_witness :
    colDot exVecs 0 1 = if (0 : Fin 4) = 1 then 1 else 0 :=
  eigvecs_orthonormal exData exVals exVecs
    (by rw [exData_cov]; exact exCov_eigen)
    exVecs_unit
    (by
      intro i j hij
      fin_cases i <;> fin_cases j <;>
        first
          | exact absurd rfl hij
          | norm_num [exVals])
    0 1

/-!
### C6: eigenvalues sum to the total variance
-/

/-- C6: the eigenvalues of the covariance matrix sum to its trace, the total
variance: the sum of the per-feature variances as computed by the covariance
routine (its diagonal entries). -/
theorem evals_sum_eq_trace {N D : ℕ} (M : Matrix (Fin N) (Fin D) ℚ)
    (evals : Fin D → ℚ) (V : Matrix (Fin D) (Fin D) ℚ)
    (hp : IsEigenpairs (covMatrix M) evals V)
    (horth : ∀ i j, colDot V i j = if i = j then 1 else 0) :
    ∑ i, evals i = Matrix.trace (covMatrix M) ∧
      Matrix.trace (covMatrix M) = ∑ j, covMatrix M j j :=
  ⟨trace_eq_sum_evals hp horth, rfl⟩

/-- Concrete run of C6 on `exData`: `1/2 + 3/2 + 3 + 0` equals the trace of
its covariance matrix. -/
theorem evals_sum_eq_trace_witness :
    ∑ i, exVals i = Matrix.trace (covMatrix exData) ∧
      Matrix.trace (covMatrix exData) = ∑ j, covMatrix exData j j :=
  evals_sum_eq_trace exData exVals exVecs
    (by rw [exData_cov]; exact exCov_eigen)
    exVecs_orthonormal_cols

/-!
### C10: the ddof mismatch

The scaler divides by the population (ddof = 0) standard deviation while
`np.cov` normalizes by `N - 1`, so the diagonal of the covariance matrix of
the standardized data is `N / (N - 1)`, not 1, and the eigenvalues sum to
`D * N / (N - 1)`, not `D`.
-/

lemma covMatrix_diag (hN : (N : α) ≠ 0) (M : Matrix (Fin N) (Fin D) α) (j : Fin D) :
    covMatrix M j j = (N : α) * popVar M j / ((N : α) - 1) := by
  unfold covMatrix popVar
  congr 1
  rw [mul_comm, div_mul_cancel₀ _ hN]
  exact Finset.sum_congr rfl fun i _ => (pow_two _).symm

/-- C10: with the scaler's ddof = 0 and the covariance routine's ddof = 1,
every diagonal entry of the covariance matrix of the standardized data equals
`N / (N - 1)` (rather than 1), and the eigenvalues sum to `D * (N / (N - 1))`
(rather than `D`). -/
theorem ddof_mismatch {N D : ℕ} (hN : 2 ≤ N) (X : Matrix (Fin N) (Fin D) ℚ)
    (sigma : Fin D → ℚ) (hs : ∀ j, sigma j ≠ 0 ∧ sigma j ^ 2 = popVar X j)
    (evals : Fin D → ℚ) (V : Matrix (Fin D) (Fin D) ℚ)
    (hp : IsEigenpairs (covMatrix (standardize X sigma)) evals V)
    (horth : ∀ i j, colDot V i j = if i = j then 1 else 0) :
    (∀ j, covMatrix (standardize X sigma) j j = (N : ℚ) / ((N : ℚ) - 1)) ∧
      ∑ i, evals i = (D : ℚ) * ((N : ℚ) / ((N : ℚ) - 1)) := by
  have hN0 : (N : ℚ) ≠ 0 := by
    have : 0 < N := lt_of_lt_of_le (by norm_num) hN
    exact Nat.cast_ne_zero.mpr this.ne'
  have hdiag : ∀ j, covMatrix (standardize X sigma) j j = (N : ℚ) / ((N : ℚ) - 1) := by
    intro j
    rw [covMatrix_diag hN0, popVar_standardize hN0 X sigma j (hs j).1 (hs j).2, mul_one]
  refine ⟨hdiag, ?_⟩
  rw [trace_eq_sum_evals hp horth]
  have : Matrix.trace (covMatrix (standardize X sigma))
      = ∑ _j : Fin D, (N : ℚ) / ((N : ℚ) - 1) := by
    unfold Matrix.trace Matrix.diag
    exact Finset.sum_congr rfl fun j _ => hdiag j
  rw [this, Finset.sum_const, Finset.card_univ, Fintype.card_fin, nsmul_eq_mul]

/-- Concrete run of C10 on `exData` (`N = 5`, `D = 4`): every diagonal entry
of the covariance of the standardized data is `5/4` and the eigenvalues sum
to `4 * (5/4) = 5`. -/
theorem ddof_mismatch_witness :
    (∀ j, covMatrix (standardize exData (fun _ => 1)) j j = (5 : ℚ) / ((5 : ℚ) - 1)) ∧
      ∑ i, exVals i = (4 : ℚ) * ((5 : ℚ) / ((5 : ℚ) - 1)) := by
  have h := ddof_mismatch (N := 5) (D := 4) (by norm_num) exData (fun _ => 1)
    (fun j => ⟨by norm_num, by rw [exData_popVar j]; norm_num⟩)
    exVals exVecs
    (by rw [exData_cov_std]; exact exCov_eigen)
    exVecs_orthonormal_cols
  exact_mod_cast h

/-- Concrete run of C4 on the eigenvalues `1/2, 3/2, 3, 0` of `exCov` (the
fractions are `60, 30, 10, 0`, the cumulative curve `0, 60, 90, 100, 100`). -/
theorem variance_explained_profile_witness :
    (varianceExplained [1/2, 3/2, 3, 0]).Sorted (· ≥ ·) ∧
      (∀ x ∈ varianceExplained [1/2, 3/2, 3, 0], 0 ≤ x) ∧
      (varianceExplained [1/2, 3/2, 3, 0]).sum = 100 ∧
      (cumulative 0 (varianceExplained [1/2, 3/2, 3, 0])).head? = some 0 ∧
      (cumulative 0 (varianceExplained [1/2, 3/2, 3, 0])).Sorted (· ≤ ·) ∧
      (cumulative 0 (varianceExplained [1/2, 3/2, 3, 0])).getLast? = some 100 :=
  variance_explained_profile [1/2, 3/2, 3, 0]
    (by intro x hx; fin_cases hx <;> norm_num)
    (by norm_num)

/-!
### C7: projecting the data

`Y = X_std @ W` with `W = evecs[:, :2]`: an N×2 matrix whose `(i, k)` entry is
the dot product of standardized observation `i` with selected eigenvector `k`.
-/

/-- C7: the projection `Y = X_std @ W` is the N×K matrix product, and its
`(i, k)` entry is the dot product of standardized observation `i` with the
`k`-th selected eigenvector column. -/
theorem projection_coordinates {N D : ℕ} (hD : 2 ≤ D)
    (X : Matrix (Fin N) (Fin D) ℚ) (sigma : Fin D → ℚ)
    (V : Matrix (Fin D) (Fin D) ℚ) (i : Fin N) (k : Fin 2) :
    (standardize X sigma * takeCols V 2 hD) i k
      = Matrix.dotProduct (fun j => standardize X sigma i j)
          (fun j => V j (Fin.castLE hD k)) := by
  rw [Matrix.mul_apply]
  rfl

/-- Concrete run of C7 on `exData`: entry `(0, 0)` of the projection is the
dot product of the first standardized observation with eigenvector column 0. -/
theorem projection_coordinates_witness :
    (standardize exData (fun _ => 1) * takeCols exVecs 2 (by norm_num)) 0 0
      = Matrix.dotProduct (fun j => standardize exData (fun _ => 1) 0 j)
          (fun j => exVecs j (Fin.castLE (by norm_num) (0 : Fin 2))) :=
  projection_coordinates (by norm_num) exData (fun _ => 1) exVecs 0 0

/-!
### C8: reconstruction error is monotone in the number of components

Modelled from the spec: the notebook itself computes no reconstruction; the
spec cites "reconstruction error decreases monotonically with added
components" as a numerical-linear-algebra identity of PCA.  Reconstruction
from `k` components projects each observation onto the span of the first `k`
(orthonormal) component vectors; the error is the summed squared residual.
-/

/-- Dot product of two `Fin D`-indexed vectors. -/
def dotv {D : ℕ} (x y : Fin D → ℚ) : ℚ := ∑ j, x j * y j

/-- Modelled from the spec: reconstruction of an observation `x` from its
first `k` components `w 0, …, w (k-1)` — the orthogonal projection
`∑_{m<k} ⟨x, w m⟩ • w m`. -/
def projTop {D : ℕ} (w : ℕ → Fin D → ℚ) (k : ℕ) (x : Fin D → ℚ) : Fin D → ℚ :=
  fun j => ∑ m ∈ Finset.range k, dotv x (w m) * w m j

/-- Modelled from the spec: the squared reconstruction error of the data set
`M` from its `k`-component reconstruction. -/
def reconError {N D : ℕ} (M : Matrix (Fin N) (Fin D) ℚ) (w : ℕ → Fin D → ℚ)
    (k : ℕ) : ℚ :=
  ∑ i, dotv (fun j => M i j - projTop w k (fun j' => M i j') j)
    (fun j => M i j - projTop w k (fun j' => M i j') j)

lemma dotv_projTop_left {D : ℕ} (w : ℕ → Fin D → ℚ) (k : ℕ) (x y : Fin D → ℚ) :
    dotv (fun j => projTop w k x j) y
      = ∑ m ∈ Finset.range k, dotv x (w m) * dotv (w m) y := by
  unfold dotv projTop
  calc ∑ j, (∑ m ∈ Finset.range k, dotv x (w m) * w m j) * y j
      = ∑ j, ∑ m ∈ Finset.range k, dotv x (w m) * w m j * y j := by
        exact Finset.sum_congr rfl fun j _ => Finset.sum_mul _ _ _
    _ = ∑ m ∈ Finset.range k, ∑ j, dotv x (w m) * w m j * y j := Finset.sum_comm
    _ = ∑ m ∈ Finset.range k, dotv x (w m) * ∑ j, w m j * y j := by
        refine Finset.sum_congr rfl fun m _ => ?_
        rw [Finset.mul_sum]
        exact Finset.sum_congr rfl fun j _ => by ring

lemma dotv_resid_component {D : ℕ} (w : ℕ → Fin D → ℚ) (k : ℕ) (x : Fin D → ℚ)
    (horth : ∀ m m', m ≤ k → m' ≤ k → dotv (w m) (w m') = if m = m' then 1 else 0) :
    dotv (fun j => x j - projTop w k x j) (w k) = dotv x (w k) := by
  have hsplit : dotv (fun j => x j - projTop w k x j) (w k)
      = dotv x (w k) - dotv (fun j => projTop w k x j) (w k) := by
    unfold dotv
    rw [← Finset.sum_sub_distrib]
    exact Finset.sum_congr rfl fun j _ => by ring
  rw [hsplit, dotv_projTop_left]
  have hz : ∑ m ∈ Finset.range k, dotv x (w m) * dotv (w m) (w k) = 0 := by
    refine Finset.sum_eq_zero fun m hm => ?_
    have hmk : m < k := Finset.mem_range.mp hm
    rw [horth m k (le_of_lt hmk) le_rfl, if_neg (ne_of_lt hmk)]
    ring
  rw [hz, sub_zero]

lemma dotv_sub_smul {D : ℕ} (r wk : Fin D → ℚ) (c : ℚ) :
    dotv (fun j => r j - c * wk j) (fun j => r j - c * wk j)
      = dotv r r - 2 * c * dotv r wk + c ^ 2 * dotv wk wk := by
  unfold dotv
  rw [Finset.mul_sum, Finset.mul_sum, ← Finset.sum_sub_distrib, ← Finset.sum_add_distrib]
  exact Finset.sum_congr rfl fun j _ => by ring

lemma resid_sq_step {D : ℕ} (w : ℕ → Fin D → ℚ) (k : ℕ) (x : Fin D → ℚ)
    (horth : ∀ m m', m ≤ k → m' ≤ k → dotv (w m) (w m') = if m = m' then 1 else 0) :
    dotv (fun j => x j - projTop w (k + 1) x j) (fun j => x j - projTop w (k + 1) x j)
      = dotv (fun j => x j - projTop w k x j) (fun j => x j - projTop w k x j)
        - dotv x (w k) ^ 2 := by
  have hcomp := dotv_resid_component w k x horth
  have hunit := horth k k le_rfl le_rfl
  rw [if_pos rfl] at hunit
  have hfun : (fun j => x j - projTop w (k + 1) x j)
      = fun j => x j - projTop w k x j - dotv x (w k) * w k j := by
    funext j
    unfold projTop
    rw [Finset.sum_range_succ]
    ring
  rw [hfun, dotv_sub_smul (fun j => x j - projTop w k x j) (w k) (dotv x (w k)),
    hcomp, hunit]
  ring

/-- C8: adding one more (orthonormal) component can only decrease the squared
reconstruction error: `reconError M w (k+1) ≤ reconError M w k`. -/
theorem recon_error_monotone {N D : ℕ} (M : Matrix (Fin N) (Fin D) ℚ)
    (w : ℕ → Fin D → ℚ) (k : ℕ)
    (horth : ∀ m m', m ≤ k → m' ≤ k → dotv (w m) (w m') = if m = m' then 1 else 0) :
    reconError M w (k + 1) ≤ reconError M w k := by
  unfold reconError
  have hstep := fun i : Fin N =>
    resid_sq_step w k (fun j' => M i j') horth
  calc ∑ i, dotv (fun j => M i j - projTop w (k + 1) (fun j' => M i j') j)
        (fun j => M i j - projTop w (k + 1) (fun j' => M i j') j)
      = ∑ i, (dotv (fun j => M i j - projTop w k (fun j' => M i j') j)
          (fun j => M i j - projTop w k (fun j' => M i j') j)
          - dotv (fun j' => M i j') (w k) ^ 2) := by
        exact Finset.sum_congr rfl fun i _ => hstep i
    _ ≤ ∑ i, dotv (fun j => M i j - projTop w k (fun j' => M i j') j)
          (fun j => M i j - projTop w k (fun j' => M i j') j) := by
        refine Finset.sum_le_sum fun i _ => ?_
        have := sq_nonneg (dotv (fun j' => M i j') (w k))
        linarith

/-- The standard basis of ℚ² as a component sequence (zero beyond index 1). -/
def stdBasisW : ℕ → Fin 2 → ℚ :=
  fun m j => if m = (j : ℕ) then 1 else 0

/-- Concrete run of C8: for the data set `(1, 2)` and the standard-basis
components, two components reconstruct at least as well as one. -/
theorem recon_error_monotone_witness :
    reconError (!![(1 : ℚ), 2]) stdBasisW 1 ≤ reconError (!![(1 : ℚ), 2]) stdBasisW 0 :=
  recon_error_monotone (!![(1 : ℚ), 2]) stdBasisW 0
    (by
      intro m m' hm hm'
      interval_cases m
      interval_cases m'
      norm_num [dotv, stdBasisW, Fin.sum_univ_succ])

/-!
### C9: the library PCA versus the hand-rolled projection

Modelled from the spec: `PCA(whiten=True).fit(iris.data).transform(iris.data)`
of scikit-learn centers the data it was fitted on, projects onto the
principal axes — eigenvector columns of the sample covariance of the fitted
data, which the library returns sorted by descending explained variance — and
divides component `k` by the whitening scale `s k` (the square root of the
explained variance, passed explicitly with `s k ^ 2 = mu k` since square
roots are irrational).

The notebook fits the library PCA on the RAW data while the hand-rolled code
projects the STANDARDIZED data onto eigenvectors of its covariance (the
correlation structure).  These are different linear maps whenever the
feature scales differ, so the two projections do not agree even up to a
per-component sign and rescaling; `library_not_matching` exhibits a concrete
5-observation, 2-feature counterexample.  `pca_on_standardized_matches`
proves the amended claim: fitted on the standardized data itself, the
library column is a nonzero scalar multiple of the hand-rolled column.
-/

/-- Modelled from the spec: the scikit-learn whitened PCA transform — center
the data, project onto the eigenvector columns of `U`, divide component `k`
by the whitening scale `s k`. -/
def pcaWhiten (X : Matrix (Fin N) (Fin D) α) (U : Matrix (Fin D) (Fin D) α)
    (s : Fin D → α) : Matrix (Fin N) (Fin D) α :=
  fun i k => (∑ j, (X i j - colMean X j) * U j k) / s k

/-- Raw data of the C9 counterexample, divided by `√35`: the two columns are
scaled to population standard deviations `26√35/5` and `32√35/5`. -/
def ceXq : Matrix (Fin 5) (Fin 2) ℚ :=
  !![52/5, 4176/455;
     -13/5, 2664/455;
     -13/5, -3112/455;
     -13/5, -2648/455;
     -13/5, -1080/455]

/-- The standardized form of the counterexample data (exactly rational). -/
def ceZq : Matrix (Fin 5) (Fin 2) ℚ :=
  !![2, 261/182;
     -1/2, 333/364;
     -1/2, -389/364;
     -1/2, -331/364;
     -1/2, -135/364]

/-- Covariance of the standardized counterexample data; its eigenvectors are
`(1, 1)/√2` and `(1, -1)/√2` with eigenvalues `3125/1456 > 515/1456`. -/
def ceCq : Matrix (Fin 2) (Fin 2) ℚ :=
  !![5/4, 1305/1456; 1305/1456, 5/4]

/-- Covariance of the raw counterexample data; its eigenvectors are
`(3, 4)/5` and `(-4, 3)/5` with eigenvalues `2575 > 400`. -/
def ceMq : Matrix (Fin 2) (Fin 2) ℚ := !![1183, 1044; 1044, 1792]

/-- The (rational, orthonormal) eigenvectors of `ceMq`. -/
def ceUq : Matrix (Fin 2) (Fin 2) ℚ := !![3/5, -4/5; 4/5, 3/5]

/-- C9 as stated, quantified over every valid run: the library PCA fitted on
the raw data, with whitening, produces first-two coordinates that agree with
the hand-rolled projection of the standardized data up to a per-component
factor. -/
def libraryMatchesHandRolled : Prop :=
  ∀ (N D : ℕ) (hD : 2 ≤ D) (X : Matrix (Fin N) (Fin D) ℝ) (sigma : Fin D → ℝ)
    (evals : Fin D → ℝ) (V : Matrix (Fin D) (Fin D) ℝ)
    (mu : Fin D → ℝ) (U : Matrix (Fin D) (Fin D) ℝ) (s : Fin D → ℝ),
    (∀ j, 0 < sigma j ∧ sigma j ^ 2 = popVar X j) →
    IsEigenpairs (covMatrix (standardize X sigma)) evals V →
    unitColumns V →
    IsEigenpairs (covMatrix X) mu U →
    unitColumns U →
    (∀ i j : Fin D, i ≤ j → mu j ≤ mu i) →
    (∀ k, 0 < s k ∧ s k ^ 2 = mu k) →
    ∀ k : Fin 2, ∃ c : ℝ, ∀ i : Fin N,
      pcaWhiten X U s i (Fin.castLE hD k)
        = c * (standardize X sigma * takeCols V 2 hD) i k

set_option maxHeartbeats 2000000 in
/-- C9 counterexample: on the concrete data set `√35/5 ⬝ ceZq ⬝ diag(26, 32)`
(columns of population standard deviations `26√35/5 ≠ 32√35/5`, correlated),
the whitened library PCA fitted on the raw data and the hand-rolled
projection of the standardized data produce first columns that are NOT
proportional: the claim fails. -/
theorem library_not_matching : ¬ libraryMatchesHandRolled := by
  intro h
  obtain ⟨t, htpos, ht⟩ : ∃ t : ℝ, 0 < t ∧ t ^ 2 = 35 :=
    ⟨Real.sqrt 35, Real.sqrt_pos.mpr (by norm_num), Real.sq_sqrt (by norm_num)⟩
  obtain ⟨r, hrpos, hr⟩ : ∃ r : ℝ, 0 < r ∧ r ^ 2 = 2 :=
    ⟨Real.sqrt 2, Real.sqrt_pos.mpr (by norm_num), Real.sq_sqrt (by norm_num)⟩
  obtain ⟨s0, hs0pos, hs0⟩ : ∃ s : ℝ, 0 < s ∧ s ^ 2 = 2575 :=
    ⟨Real.sqrt 2575, Real.sqrt_pos.mpr (by norm_num), Real.sq_sqrt (by norm_num)⟩
  have ht0 : t ≠ 0 := ne_of_gt htpos
  have hr0 : r ≠ 0 := ne_of_gt hrpos
  have hs00 : s0 ≠ 0 := ne_of_gt hs0pos
  have hmean : ∀ j, colMean (fun i j => (ceXq i j : ℝ) * t) j = 0 := by
    intro j
    fin_cases j <;> (norm_num [colMean, ceXq, Fin.sum_univ_succ]; ring)
  have hstd : standardize (fun i j => (ceXq i j : ℝ) * t) ![26*t/5, 32*t/5]
      = fun i j => (ceZq i j : ℝ) := by
    ext i j
    unfold standardize
    rw [hmean j]
    fin_cases i <;> fin_cases j <;> (norm_num [ceXq, ceZq]; field_simp; ring)
  have hmeanZ : ∀ j, colMean (fun i j => (ceZq i j : ℝ)) j = 0 := by
    intro j
    fin_cases j <;> norm_num [colMean, ceZq, Fin.sum_univ_succ]
  have hcovZ : covMatrix (fun i j => (ceZq i j : ℝ)) = fun j k => (ceCq j k : ℝ) := by
    ext j k
    unfold covMatrix
    rw [hmeanZ j, hmeanZ k]
    fin_cases j <;> fin_cases k <;> norm_num [ceZq, ceCq, Fin.sum_univ_succ]
  have hcovX : covMatrix (fun i j => (ceXq i j : ℝ) * t) = fun j k => (ceMq j k : ℝ) := by
    ext j k
    unfold covMatrix
    rw [hmean j, hmean k]
    fin_cases j <;> fin_cases k
    · norm_num [ceXq, ceMq, Fin.sum_univ_succ]
      linear_combination (1183/35 : ℝ) * ht
    · norm_num [ceXq, ceMq, Fin.sum_univ_succ]
      linear_combination (1044/35 : ℝ) * ht
    · norm_num [ceXq, ceMq, Fin.sum_univ_succ]
      linear_combination (1044/35 : ℝ) * ht
    · norm_num [ceXq, ceMq, Fin.sum_univ_succ]
      linear_combination (1792/35 : ℝ) * ht
  have h2 := h 5 2 (le_refl 2) (fun i j => (ceXq i j : ℝ) * t) ![26*t/5, 32*t/5]
    ![3125/1456, 515/1456]
    (fun j i => ((!![1, 1; 1, -1] : Matrix (Fin 2) (Fin 2) ℚ) j i : ℝ) * r⁻¹)
    ![2575, 400] (fun j k => (ceUq j k : ℝ)) ![s0, 20]
    (by
      intro j
      fin_cases j
      · refine ⟨?_, ?_⟩
        · show (0 : ℝ) < 26 * t / 5
          linarith
        · norm_num [popVar, colMean, ceXq, Fin.sum_univ_succ]
          ring
      · refine ⟨?_, ?_⟩
        · show (0 : ℝ) < 32 * t / 5
          linarith
        · norm_num [popVar, colMean, ceXq, Fin.sum_univ_succ]
          ring)
    (by
      rw [hstd, hcovZ]
      intro i j
      fin_cases i <;> fin_cases j <;> (norm_num [ceCq, Fin.sum_univ_succ]; ring))
    (by
      intro i
      fin_cases i <;>
        (norm_num [Fin.sum_univ_succ]; field_simp; linear_combination -hr))
    (by
      rw [hcovX]
      intro i j
      fin_cases i <;> fin_cases j <;> norm_num [ceMq, ceUq, Fin.sum_univ_succ])
    (by
      intro i
      fin_cases i <;> norm_num [ceUq, Fin.sum_univ_succ])
    (by
      intro i j hij
      fin_cases i <;> fin_cases j
      · exact le_refl _
      · show (400 : ℝ) ≤ 2575
        norm_num
      · exact absurd hij (by decide)
      · exact le_refl _)
    (by
      intro k
      fin_cases k
      · exact ⟨hs0pos, hs0⟩
      · exact ⟨by norm_num, by norm_num⟩)
  obtain ⟨c, hc⟩ := h2 0
  have h0 := hc 0
  have h1 := hc 1
  rw [hstd] at h0 h1
  unfold pcaWhiten takeCols at h0 h1
  simp only [hmean] at h0 h1
  norm_num [Matrix.mul_apply, ceXq, ceZq, ceUq, Fin.sum_univ_succ, Fin.castLE] at h0 h1
  have hcross : ((52 / 5 * t * (3 / 5) + 4176 / 455 * t * (4 / 5)) / s0)
        * (-(1 / 2 * r⁻¹) + 333 / 364 * r⁻¹)
      = ((-(13 / 5 * t * (3 / 5)) + 2664 / 455 * t * (4 / 5)) / s0)
        * (2 * r⁻¹ + 261 / 182 * r⁻¹) := by
    rw [h0, h1]
    ring
  field_simp at hcross
  have hmon : 0 < t * r ^ 3 * s0 := mul_pos (mul_pos htpos (pow_pos hrpos 3)) hs0pos
  ring_nf at hcross hmon
  linarith

/-- C9 amended: when the library PCA is fitted on the standardized
(zero-mean) data itself — the matrix the hand-rolled code diagonalizes — its
`k`-th whitened column is a nonzero scalar multiple of the hand-rolled `k`-th
projection column (the scalar absorbs the per-component sign and the
whitening rescaling), provided the two eigendecompositions list the same
eigenvalue at position `k`, the eigenvalues are pairwise distinct, and the
hand-rolled eigenvector columns are orthonormal. -/
theorem pca_on_standardized_matches {N D : ℕ} (hD : 2 ≤ D)
    (M : Matrix (Fin N) (Fin D) ℚ) (evals : Fin D → ℚ)
    (V : Matrix (Fin D) (Fin D) ℚ) (mu : Fin D → ℚ)
    (U : Matrix (Fin D) (Fin D) ℚ) (s : Fin D → ℚ)
    (hmean : ∀ j, colMean M j = 0)
    (hpV : IsEigenpairs (covMatrix M) evals V)
    (horth : ∀ i j, colDot V i j = if i = j then 1 else 0)
    (hpU : IsEigenpairs (covMatrix M) mu U)
    (hUnz : ∀ q : Fin D, ∃ d, U d q ≠ 0)
    (hdist : ∀ i j, i ≠ j → evals i ≠ evals j)
    (hs : ∀ k, s k ≠ 0)
    (k : Fin 2) (halign : mu (Fin.castLE hD k) = evals (Fin.castLE hD k)) :
    ∃ c : ℚ, c ≠ 0 ∧ ∀ i : Fin N,
      pcaWhiten M U s i (Fin.castLE hD k)
        = c * (M * takeCols V 2 hD) i k := by
  set q : Fin D := Fin.castLE hD k with hq
  have hzero : ∀ i : Fin D, i ≠ q → ∑ d, V d i * U d q = 0 := by
    intro i hiq
    have hcr := eigen_cross_two (covMatrix_symm M) hpV hpU i q
    rw [halign] at hcr
    have hfac : (evals i - evals q) * (∑ d, V d i * U d q) = 0 := by
      have hsub := sub_eq_zero.mpr hcr
      calc (evals i - evals q) * (∑ d, V d i * U d q)
          = evals i * (∑ d, V d i * U d q) - evals q * (∑ d, V d i * U d q) := by ring
        _ = 0 := hsub
    rcases mul_eq_zero.mp hfac with h0 | h0
    · exact absurd (sub_eq_zero.mp h0) (hdist i q hiq)
    · exact h0
  have hVtV : V.transpose * V = 1 := orthonormal_transpose_mul horth
  have hVVt : V * V.transpose = 1 := Matrix.mul_eq_one_comm.mp hVtV
  have hexpand : ∀ d, U d q = (∑ e, V e q * U e q) * V d q := by
    intro d
    have h1 : (V * V.transpose).mulVec (fun e => U e q) = fun e => U e q := by
      rw [hVVt, Matrix.one_mulVec]
    have h2 := congrFun h1 d
    have h3 : ((V * V.transpose).mulVec fun e => U e q) d
        = ∑ x, (∑ i, V d i * V x i) * U x q := by
      simp [Matrix.mulVec, Matrix.dotProduct, Matrix.mul_apply, Matrix.transpose_apply]
    have h4 : ∑ x, (∑ i, V d i * V x i) * U x q
        = ∑ i, V d i * ∑ x, V x i * U x q := by
      calc ∑ x, (∑ i, V d i * V x i) * U x q
          = ∑ x, ∑ i, V d i * V x i * U x q := by
            exact Finset.sum_congr rfl fun x _ => Finset.sum_mul _ _ _
        _ = ∑ i, ∑ x, V d i * V x i * U x q := Finset.sum_comm
        _ = ∑ i, V d i * ∑ x, V x i * U x q := by
            refine Finset.sum_congr rfl fun i _ => ?_
            rw [Finset.mul_sum]
            exact Finset.sum_congr rfl fun x _ => by ring
    have h5 : ∑ i, V d i * ∑ x, V x i * U x q = V d q * ∑ x, V x q * U x q := by
      refine Finset.sum_eq_single q (fun i _ hiq => ?_)
        (fun habs => absurd (Finset.mem_univ q) habs)
      rw [hzero i hiq, mul_zero]
    rw [← h2, h3, h4, h5]
    ring
  obtain ⟨d0, hd0⟩ := hUnz q
  have hc0 : (∑ e, V e q * U e q) ≠ 0 := by
    intro h0
    apply hd0
    rw [hexpand d0, h0, zero_mul]
  refine ⟨(∑ e, V e q * U e q) / s q, div_ne_zero hc0 (hs q), ?_⟩
  intro i
  unfold pcaWhiten
  have hnum : ∑ j, (M i j - colMean M j) * U j q
      = (∑ e, V e q * U e q) * ∑ j, M i j * V j q := by
    calc ∑ j, (M i j - colMean M j) * U j q
        = ∑ j, M i j * U j q := by
          refine Finset.sum_congr rfl fun j _ => ?_
          rw [hmean j, sub_zero]
      _ = ∑ j, M i j * ((∑ e, V e q * U e q) * V j q) := by
          refine Finset.sum_congr rfl fun j _ => ?_
          rw [hexpand j]
      _ = (∑ e, V e q * U e q) * ∑ j, M i j * V j q := by
          rw [Finset.mul_sum]
          exact Finset.sum_congr rfl fun j _ => by ring
  rw [hnum]
  have hprod : (M * takeCols V 2 hD) i k = ∑ j, M i j * V j q := by
    rw [Matrix.mul_apply]
    rfl
  rw [hprod]
  ring

/-- A zero-mean 3×2 data set for the amended-C9 witness: its covariance is
`diag(1, 3)` with orthonormal eigenvectors `(0,1)` and `(1,0)` for the
descending eigenvalues `3, 1`. -/
def exB : Matrix (Fin 3) (Fin 2) ℚ := !![1, 1; -1, 1; 0, -2]

/-- The eigenvector matrix shared by both decompositions in the witness. -/
def exBVecs : Matrix (Fin 2) (Fin 2) ℚ := !![0, 1; 1, 0]

/-- Concrete run of the amended C9: fitted on the zero-mean data `exB`, the
library PCA's first whitened column is a nonzero multiple of the hand-rolled
first projection column. -/
theorem pca_on_standardized_matches_witness :
    ∃ c : ℚ, c ≠ 0 ∧ ∀ i : Fin 3,
      pcaWhiten exB exBVecs ![1, 1] i (Fin.castLE (by norm_num) (0 : Fin 2))
        = c * (exB * takeCols exBVecs 2 (by norm_num)) i 0 :=
  pca_on_standardized_matches (by norm_num) exB ![3, 1] exBVecs ![3, 1] exBVecs ![1, 1]
    (by intro j; fin_cases j <;> norm_num [colMean, exB, Fin.sum_univ_succ])
    (by
      intro i j
      fin_cases i <;> fin_cases j <;>
        norm_num [covMatrix, colMean, exB, exBVecs, Fin.sum_univ_succ])
    (by
      intro i j
      fin_cases i <;> fin_cases j <;>
        norm_num [colDot, exBVecs, Fin.sum_univ_succ, Fin.ext_iff])
    (by
      intro i j
      fin_cases i <;> fin_cases j <;>
        norm_num [covMatrix, colMean, exB, exBVecs, Fin.sum_univ_succ])
    (by
      intro q
      fin_cases q
      · exact ⟨1, by norm_num [exBVecs]⟩
      · exact ⟨0, by norm_num [exBVecs]⟩)
    (by
      intro i j hij
      fin_cases i <;> fin_cases j <;>
        first
          | exact absurd rfl hij
          | norm_num)
    (by intro k; fin_cases k <;> norm_num)
    0 rfl

end DimRed
